import Mathlib

/-!
Verification of the mastermind code-breaking game (src/src/main.rs).

The embedding models the Rust source shallowly:
* `Color` embeds `enum Color` (Red/Green/Blue/Purple).
* `Code` embeds `struct Code { positional: [Color; 4], set: HashSet<Color> }`:
  the fixed-size array becomes a list together with a length-4 proof, and the
  `HashSet<Color>` becomes a `Finset Color`.
* `Key`, `Score`, `Round`, `Board` embed the corresponding Rust types.
* `Code.scoreOpt` embeds `Code::score` literally: the per-position keys are
  collected into a list (the Rust `Vec<Key>`) which is then indexed at
  0,1,2,3; an out-of-bounds index (a Rust panic) is modelled as `none`.
  `Code.score` is the same computation using the static length-4 guarantee of
  the array type; `scoreOpt_eq_score` proves the two agree, i.e. the panic
  branch is unreachable.
* `Code.tryFrom` embeds `TryFrom<String> for Code` on the character list of
  the input string.  The indexing `pos[0]..pos[3]` performed after the length
  check is likewise modelled with optional indexing, an out-of-bounds access
  (panic) appearing as `Except.ok none`.
* `Board.submit` embeds the state-changing part of `Board::get_input` (lines
  134-144): the reading and parsing of a line happen before it (external
  collaborators); `submit` consumes the already-parsed guess, appends the
  round and returns whether the just-recorded round wins.
* `play` embeds the driving loop of `main`: submit guesses one by one,
  stopping right after the first winning submission.
-/

/-- Embeds `enum Color` from the source. -/
inductive Color where
  | Red
  | Green
  | Blue
  | Purple
  deriving DecidableEq

/-- Embeds `enum Key` from the source. -/
inductive Key where
  | ColorCorrect
  | ColorAndPositionCorrect
  | Empty
  deriving DecidableEq

/-- The spec's name for `Key::ColorAndPositionCorrect`. -/
abbrev Key.ExactMatch : Key := Key.ColorAndPositionCorrect

/-- The spec's name for `Key::ColorCorrect`. -/
abbrev Key.PresentElsewhere : Key := Key.ColorCorrect

/-- The spec's name for `Key::Empty`. -/
abbrev Key.Absent : Key := Key.Empty

/-- Embeds `struct Score(Key, Key, Key, Key)` from the source. -/
structure Score where
  k0 : Key
  k1 : Key
  k2 : Key
  k3 : Key
  deriving DecidableEq

/-- Embeds `Score::wins`: a `Score` wins exactly when all four keys are
`ColorAndPositionCorrect`. -/
def Score.wins : Score → Bool
  | ⟨Key.ColorAndPositionCorrect, Key.ColorAndPositionCorrect,
     Key.ColorAndPositionCorrect, Key.ColorAndPositionCorrect⟩ => true
  | _ => false

/-- The key of a `Score` at position `i`, reading the four fields in
positional order (position `i` of the Rust tuple struct). -/
def Score.get (s : Score) (i : Fin 4) : Key :=
  match i with
  | ⟨0, _⟩ => s.k0
  | ⟨1, _⟩ => s.k1
  | ⟨2, _⟩ => s.k2
  | ⟨3, _⟩ => s.k3
  | ⟨n + 4, h⟩ => absurd h (by omega)

/-- Embeds `struct Code`.  The Rust field `positional: [Color; 4]` is a list
with a proof that its length is 4 (the array type's static guarantee), and
`set: HashSet<Color>` is a `Finset Color`. -/
structure Code where
  positional : List Color
  hlen : positional.length = 4
  set : Finset Color

/-- The symbol of a `Code` at position `i` (the Rust `self.positional[i]`). -/
def Code.getSym (c : Code) (i : Fin 4) : Color :=
  c.positional.get ⟨i.1, by rw [c.hlen]; exact i.2⟩

/-- The derived-set invariant stated by the spec for `Code`: the `set` field
holds exactly the symbols occurring in the positional sequence. -/
def Code.valid (c : Code) : Prop := c.set = c.positional.toFinset

instance (c : Code) : Decidable c.valid := by
  unfold Code.valid; infer_instance

/-- The per-position comparison from `Code::score`'s closure: exact match
first, then membership of the guessed symbol in the scoring code's set,
otherwise empty. -/
def scoreKey (set : Finset Color) (s o : Color) : Key :=
  if s = o then Key.ColorAndPositionCorrect
  else if o ∈ set then Key.ColorCorrect
  else Key.Empty

/-- Literal embedding of `Code::score`: zip the two positional sequences, map
the comparison closure into a list (the Rust `Vec<Key>`), then index it at
0,1,2,3.  A Rust indexing panic is modelled as `none`. -/
def Code.scoreOpt (self other : Code) : Option Score :=
  let keys := List.zipWith (scoreKey self.set) self.positional other.positional
  match keys[0]?, keys[1]?, keys[2]?, keys[3]? with
  | some a, some b, some c, some d => some ⟨a, b, c, d⟩
  | _, _, _, _ => none

/-- `Code::score` using the static length-4 guarantee of `[Color; 4]`: the
zip of two length-4 sequences evaluated positionally.  `scoreOpt_eq_score`
proves this agrees with the literal `scoreOpt` embedding. -/
def Code.score (self other : Code) : Score :=
  match self.positional, other.positional with
  | [s0, s1, s2, s3], [o0, o1, o2, o3] =>
      ⟨scoreKey self.set s0 o0, scoreKey self.set s1 o1,
       scoreKey self.set s2 o2, scoreKey self.set s3 o3⟩
  | _, _ => ⟨Key.Empty, Key.Empty, Key.Empty, Key.Empty⟩

/-- The parse errors of `TryFrom<String> for Code`; the source carries them
as the strings given in the comments, the spec names the variants. -/
inductive ParseError where
  /-- source: `Err("not enough characters")` -/
  | TooFewSymbols
  /-- source: `Err("too many characters")` -/
  | TooManySymbols
  deriving DecidableEq

/-- The per-character arm of the `filter_map` in `TryFrom<String> for Code`:
`(`, `)` and `,` are discarded explicitly, the four alphabet characters map
to their colors, and every other character falls to the default arm and is
discarded. -/
def parseChar (c : Char) : Option Color :=
  if c = '(' ∨ c = ')' ∨ c = ',' then none
  else if c = 'r' then some Color.Red
  else if c = 'g' then some Color.Green
  else if c = 'b' then some Color.Blue
  else if c = 'p' then some Color.Purple
  else none

/-- The tail of `TryFrom<String> for Code` after the `filter_map` produced
`pos`: the length check, then the four indexings `pos[0]..pos[3]` building
the positional array (an out-of-bounds panic is modelled as `Except.ok
none`).  The `set` field is the fold of the insertions the Rust closure
performs, one per kept character, in encounter order. -/
def tryFromPos (pos : List Color) : Except ParseError (Option Code) :=
  if pos.length < 4 then Except.error ParseError.TooFewSymbols
  else if 4 < pos.length then Except.error ParseError.TooManySymbols
  else
    match pos[0]?, pos[1]?, pos[2]?, pos[3]? with
    | some a, some b, some c, some d =>
        Except.ok (some ⟨[a, b, c, d], rfl, pos.foldl (fun acc x => insert x acc) ∅⟩)
    | _, _, _, _ => Except.ok none

/-- Embeds `TryFrom<String> for Code` on the input's character sequence. -/
def Code.tryFrom (s : List Char) : Except ParseError (Option Code) :=
  tryFromPos (s.filterMap parseChar)

/-- Embeds `fmt::Display for Color`. -/
def Color.display : Color → Char
  | Color.Red => 'r'
  | Color.Green => 'g'
  | Color.Blue => 'b'
  | Color.Purple => 'p'

/-- Embeds `fmt::Display for Code`: the four positional symbols, space
separated (`"{} {} {} {}"`).  The fallback branch is unreachable because
`hlen` guarantees four positions (the Rust array indexing is total). -/
def Code.display (c : Code) : List Char :=
  match c.positional with
  | [a, b, x, d] =>
      [a.display, ' ', b.display, ' ', x.display, ' ', d.display]
  | _ => []

/-- Embeds `struct Round`. -/
structure Round where
  input_code : Code
  score : Score

/-- Embeds `Round::wins`. -/
def Round.wins (r : Round) : Bool := r.score.wins

/-- Embeds `struct Board`. -/
structure Board where
  hidden_code : Code
  rounds : List Round

/-- Embeds the state-changing part of `Board::get_input` (after the line has
been read and parsed into `guess` by the external collaborators): build the
round from the guess and its score against the hidden code, push it, and
report whether the last recorded round wins. -/
def Board.submit (b : Board) (guess : Code) : Board × Bool :=
  let round : Round := ⟨guess, b.hidden_code.score guess⟩
  let rounds := b.rounds ++ [round]
  (⟨b.hidden_code, rounds⟩,
   match rounds.getLast? with
   | some r => r.wins
   | none => false)

/-- Embeds the driving loop of `main` over a stream of already-parsed
guesses: submit each guess in turn and stop right after the first winning
submission (remaining guesses are never consumed). -/
def play (b : Board) : List Code → Board
  | [] => b
  | g :: gs =>
      match b.submit g with
      | (b2, true) => b2
      | (b2, false) => play b2 gs

/-- Sample code `r g b p` with its derived set. -/
def codeRGBP : Code :=
  ⟨[Color.Red, Color.Green, Color.Blue, Color.Purple], rfl,
   [Color.Red, Color.Green, Color.Blue, Color.Purple].toFinset⟩

/-- Sample code `r r r r` with its derived set. -/
def codeRRRR : Code :=
  ⟨[Color.Red, Color.Red, Color.Red, Color.Red], rfl, [Color.Red].toFinset⟩

/-- The code produced by parsing `rgbp` (set built by the parser's fold). -/
def parsedRGBP : Code :=
  ⟨[Color.Red, Color.Green, Color.Blue, Color.Purple], rfl,
   [Color.Red, Color.Green, Color.Blue, Color.Purple].foldl
     (fun acc x => insert x acc) ∅⟩

/- ### Helper lemmas -/

lemma exists_four {α : Type} (l : List α) (h : l.length = 4) :
    ∃ a b c d : α, l = [a, b, c, d] := by
  rcases l with _ | ⟨a, l⟩
  · simp at h
  rcases l with _ | ⟨b, l⟩
  · simp at h
  rcases l with _ | ⟨c, l⟩
  · simp at h
  rcases l with _ | ⟨d, l⟩
  · simp at h
  rcases l with _ | ⟨e, l⟩
  · exact ⟨a, b, c, d, rfl⟩
  · simp at h

lemma tryFromPos_four (a b c d : Color) :
    tryFromPos [a, b, c, d] =
      Except.ok (some ⟨[a, b, c, d], rfl,
        [a, b, c, d].foldl (fun acc x => insert x acc) ∅⟩) := rfl

lemma score_eq_of (self other : Code) (s0 s1 s2 s3 o0 o1 o2 o3 : Color)
    (hs : self.positional = [s0, s1, s2, s3])
    (ho : other.positional = [o0, o1, o2, o3]) :
    self.score other =
      ⟨scoreKey self.set s0 o0, scoreKey self.set s1 o1,
       scoreKey self.set s2 o2, scoreKey self.set s3 o3⟩ := by
  unfold Code.score
  rw [hs, ho]

lemma scoreOpt_eq_score (self other : Code) :
    self.scoreOpt other = some (self.score other) := by
  obtain ⟨s0, s1, s2, s3, hs⟩ := exists_four self.positional self.hlen
  obtain ⟨o0, o1, o2, o3, ho⟩ := exists_four other.positional other.hlen
  rw [score_eq_of self other s0 s1 s2 s3 o0 o1 o2 o3 hs ho]
  unfold Code.scoreOpt
  rw [hs, ho]
  rfl

lemma foldl_insert_eq (l : List Color) (acc : Finset Color) :
    l.foldl (fun acc x => insert x acc) acc = acc ∪ l.toFinset := by
  induction l generalizing acc with
  | nil => simp
  | cons x l ih =>
      simp only [List.foldl_cons, List.toFinset_cons, ih]
      rw [Finset.insert_union, Finset.union_insert]

lemma scoreKey_eq_exact (set : Finset Color) (s o : Color) :
    scoreKey set s o = Key.ColorAndPositionCorrect ↔ s = o := by
  unfold scoreKey
  split
  · simp_all
  · split <;> simp_all

lemma wins_iff (s : Score) :
    s.wins = true ↔
      s.k0 = Key.ColorAndPositionCorrect ∧ s.k1 = Key.ColorAndPositionCorrect ∧
      s.k2 = Key.ColorAndPositionCorrect ∧ s.k3 = Key.ColorAndPositionCorrect := by
  rcases s with ⟨a, b, c, d⟩
  cases a <;> cases b <;> cases c <;> cases d <;> simp [Score.wins]

lemma scoreKey_spec (st : Finset Color) (s o : Color) :
    scoreKey st s o =
      if o = s then Key.ExactMatch
      else if o ∈ st then Key.PresentElsewhere
      else Key.Absent := by
  unfold scoreKey
  by_cases h : s = o
  · simp [h]
  · have h2 : ¬(o = s) := fun hh => h hh.symm
    rw [if_neg h, if_neg h2]

/- ### Claim theorems -/

/-- C1: for every pair of valid Codes (hidden, guess) and every position
`i` in 0..4, the Key at position `i` of `score(hidden, guess)` is
`ExactMatch` if `guess[i]` equals `hidden[i]`; otherwise `PresentElsewhere`
if hidden's derived symbol set contains `guess[i]`; otherwise `Absent` —
the four Keys assembled in positional order. -/
theorem C1_score_positionwise (hidden guess : Code)
    (hv : hidden.valid) (gv : guess.valid) (i : Fin 4) :
    (hidden.score guess).get i =
      if guess.getSym i = hidden.getSym i then Key.ExactMatch
      else if guess.getSym i ∈ hidden.set then Key.PresentElsewhere
      else Key.Absent := by
  rcases hidden with ⟨hp, hh, hset⟩
  rcases guess with ⟨gp, gh, gset⟩
  obtain ⟨s0, s1, s2, s3, hs⟩ := exists_four hp hh
  subst hs
  obtain ⟨o0, o1, o2, o3, ho⟩ := exists_four gp gh
  subst ho
  fin_cases i <;>
    simp [Code.score, Score.get, Code.getSym, scoreKey_spec, List.get]

theorem C1_witness :
    codeRGBP.valid ∧ codeRRRR.valid ∧
    (codeRGBP.score codeRRRR).get 1 =
      (if codeRRRR.getSym 1 = codeRGBP.getSym 1 then Key.ExactMatch
       else if codeRRRR.getSym 1 ∈ codeRGBP.set then Key.PresentElsewhere
       else Key.Absent) :=
  ⟨by decide, by decide,
   C1_score_positionwise codeRGBP codeRRRR (by decide) (by decide) 1⟩

/-- C2: scoring uses unlimited set-membership with no multiset limiting:
with hidden = `r g b p` and guess = `r r r r`, the score is exactly
`(ExactMatch, PresentElsewhere, PresentElsewhere, PresentElsewhere)` —
repeated guessed symbols each independently score `PresentElsewhere` even
though the hidden code contains only one occurrence of that symbol. -/
theorem C2_no_multiset_limiting :
    codeRGBP.valid ∧ codeRRRR.valid ∧
    codeRGBP.score codeRRRR =
      ⟨Key.ExactMatch, Key.PresentElsewhere,
       Key.PresentElsewhere, Key.PresentElsewhere⟩ := by
  refine ⟨by decide, by decide, by decide⟩

/-- C3: a Score is winning iff all four Keys are `ExactMatch`; for every
pair of valid Codes, `score(hidden, guess)` is winning iff guess's
positional sequence equals hidden's; in particular `score(hidden, hidden)`
is always winning. -/
theorem C3_win_iff_equal (hidden guess : Code)
    (hv : hidden.valid) (gv : guess.valid) :
    (∀ s : Score, s.wins = true ↔
        (s.k0 = Key.ExactMatch ∧ s.k1 = Key.ExactMatch ∧
         s.k2 = Key.ExactMatch ∧ s.k3 = Key.ExactMatch)) ∧
    ((hidden.score guess).wins = true ↔
        guess.positional = hidden.positional) ∧
    (hidden.score hidden).wins = true := by
  rcases hidden with ⟨hp, hh, hset⟩
  rcases guess with ⟨gp, gh, gset⟩
  obtain ⟨s0, s1, s2, s3, hs⟩ := exists_four hp hh
  subst hs
  obtain ⟨o0, o1, o2, o3, ho⟩ := exists_four gp gh
  subst ho
  refine ⟨wins_iff, ?_, ?_⟩
  · rw [score_eq_of _ _ s0 s1 s2 s3 o0 o1 o2 o3 rfl rfl, wins_iff]
    simp only [scoreKey_eq_exact]
    constructor
    · rintro ⟨h0, h1, h2, h3⟩
      rw [h0, h1, h2, h3]
    · intro h
      injection h with h0 h
      injection h with h1 h
      injection h with h2 h
      injection h with h3 h
      exact ⟨h0.symm, h1.symm, h2.symm, h3.symm⟩
  · rw [score_eq_of _ _ s0 s1 s2 s3 s0 s1 s2 s3 rfl rfl, wins_iff]
    exact ⟨(scoreKey_eq_exact _ _ _).mpr rfl, (scoreKey_eq_exact _ _ _).mpr rfl,
           (scoreKey_eq_exact _ _ _).mpr rfl, (scoreKey_eq_exact _ _ _).mpr rfl⟩

theorem C3_witness :
    codeRGBP.valid ∧
    (((codeRGBP.score codeRGBP).wins = true ↔
        codeRGBP.positional = codeRGBP.positional) ∧
     (codeRGBP.score codeRGBP).wins = true) :=
  ⟨by decide, (C3_win_iff_equal codeRGBP codeRGBP (by decide) (by decide)).2⟩

/-- C4: parsing fails with `TooFewSymbols` when fewer than 4 valid alphabet
characters remain after filtering, fails with `TooManySymbols` when more
than 4 remain, and succeeds (producing a Code) when exactly 4 remain. -/
theorem C4_length_enforcement (s : List Char) :
    ((s.filterMap parseChar).length < 4 →
        Code.tryFrom s = Except.error ParseError.TooFewSymbols) ∧
    (4 < (s.filterMap parseChar).length →
        Code.tryFrom s = Except.error ParseError.TooManySymbols) ∧
    ((s.filterMap parseChar).length = 4 →
        ∃ code : Code, Code.tryFrom s = Except.ok (some code)) := by
  refine ⟨?_, ?_, ?_⟩
  · intro h
    unfold Code.tryFrom tryFromPos
    rw [if_pos h]
  · intro h
    unfold Code.tryFrom tryFromPos
    rw [if_neg (by omega), if_pos h]
  · intro h
    obtain ⟨a, b, x, d, hp⟩ := exists_four _ h
    unfold Code.tryFrom
    rw [hp, tryFromPos_four]
    exact ⟨_, rfl⟩

theorem C4_witness :
    (([] : List Char).filterMap parseChar).length < 4 ∧
    Code.tryFrom [] = Except.error ParseError.TooFewSymbols ∧
    4 < (['r', 'g', 'b', 'p', 'r'].filterMap parseChar).length ∧
    Code.tryFrom ['r', 'g', 'b', 'p', 'r'] = Except.error ParseError.TooManySymbols ∧
    (['r', 'g', 'b', 'p'].filterMap parseChar).length = 4 ∧
    ∃ code : Code, Code.tryFrom ['r', 'g', 'b', 'p'] = Except.ok (some code) :=
  ⟨by decide, (C4_length_enforcement []).1 (by decide),
   by decide, (C4_length_enforcement ['r', 'g', 'b', 'p', 'r']).2.1 (by decide),
   by decide, (C4_length_enforcement ['r', 'g', 'b', 'p']).2.2 (by decide)⟩

/-- C5: parsing silently drops `(`, `)`, `,` and every character outside
the alphabet `{r, g, b, p}` before the length check; consequently every
string containing exactly 4 alphabet characters (arbitrary garbage
interspersed) parses successfully, the resulting positional sequence being
those 4 symbols in encounter order. -/
theorem C5_garbage_dropped :
    (∀ c : Char, c ≠ 'r' → c ≠ 'g' → c ≠ 'b' → c ≠ 'p' → parseChar c = none) ∧
    (∀ (s : List Char) (a b x d : Color),
        s.filterMap parseChar = [a, b, x, d] →
        ∃ code : Code, Code.tryFrom s = Except.ok (some code) ∧
          code.positional = [a, b, x, d]) := by
  constructor
  · intro c h1 h2 h3 h4
    simp [parseChar, h1, h2, h3, h4]
  · intro s a b x d h
    unfold Code.tryFrom
    rw [h, tryFromPos_four]
    exact ⟨_, rfl, rfl⟩

theorem C5_witness :
    parseChar 'x' = none ∧
    ∃ code : Code,
      Code.tryFrom ['(', 'r', ',', 'g', 'z', ',', 'b', ',', 'p', ')'] =
        Except.ok (some code) ∧
      code.positional = [Color.Red, Color.Green, Color.Blue, Color.Purple] :=
  ⟨C5_garbage_dropped.1 'x' (by decide) (by decide) (by decide) (by decide),
   C5_garbage_dropped.2 ['(', 'r', ',', 'g', 'z', ',', 'b', ',', 'p', ')']
     Color.Red Color.Green Color.Blue Color.Purple (by decide)⟩

lemma parseChar_display (x : Color) : parseChar x.display = some x := by
  cases x <;> rfl

lemma parseChar_space : parseChar ' ' = none := rfl

/-- C6: round-trip — for every Code value, formatting it to its canonical
text (space-separated single-character symbol codes) and parsing that text
back succeeds and yields a Code with an equal positional sequence. -/
theorem C6_display_roundtrip (c : Code) :
    ∃ c2 : Code, Code.tryFrom c.display = Except.ok (some c2) ∧
      c2.positional = c.positional := by
  rcases c with ⟨pos, hl, st⟩
  obtain ⟨a, b, x, d, hp⟩ := exists_four pos hl
  subst hp
  have hd : Code.display ⟨[a, b, x, d], hl, st⟩ =
      [a.display, ' ', b.display, ' ', x.display, ' ', d.display] := rfl
  rw [hd]
  unfold Code.tryFrom
  have hf : [a.display, ' ', b.display, ' ', x.display, ' ', d.display].filterMap
      parseChar = [a, b, x, d] := by
    simp [List.filterMap_cons, parseChar_display, parseChar_space]
  rw [hf, tryFromPos_four]
  exact ⟨_, rfl, rfl⟩

theorem C6_witness :
    ∃ c2 : Code, Code.tryFrom codeRGBP.display = Except.ok (some c2) ∧
      c2.positional = codeRGBP.positional :=
  C6_display_roundtrip codeRGBP

/-- C7: every Code that parsing constructs satisfies derived-set
consistency (its set is exactly the set of symbols of its positional
sequence), and the invariant is preserved by the state-changing operation:
`submit` keeps the hidden Code intact and every round it adds carries the
given guess unchanged, so no Code is ever mutated after construction. -/
theorem C7_derived_set_invariant :
    (∀ (s : List Char) (code : Code),
        Code.tryFrom s = Except.ok (some code) → code.valid) ∧
    (∀ (b : Board) (g : Code), b.hidden_code.valid → g.valid →
        ((b.submit g).1.hidden_code.valid ∧
         ∀ r ∈ (b.submit g).1.rounds, r ∈ b.rounds ∨ r.input_code.valid)) := by
  constructor
  · intro s code h
    rcases lt_trichotomy ((s.filterMap parseChar).length) 4 with h1 | h1 | h1
    · unfold Code.tryFrom tryFromPos at h
      rw [if_pos h1] at h
      exact absurd h (by simp)
    · obtain ⟨a, b, x, d, hp⟩ := exists_four _ h1
      unfold Code.tryFrom at h
      rw [hp, tryFromPos_four] at h
      simp only [Except.ok.injEq, Option.some.injEq] at h
      subst h
      unfold Code.valid
      simp only [foldl_insert_eq, Finset.empty_union]

    · unfold Code.tryFrom tryFromPos at h
      rw [if_neg (by omega), if_pos h1] at h
      exact absurd h (by simp)
  · intro b g hb hg
    unfold Board.submit
    refine ⟨hb, ?_⟩
    intro r hr
    simp only [List.mem_append, List.mem_singleton] at hr
    rcases hr with hr | hr
    · exact Or.inl hr
    · subst hr
      exact Or.inr hg

theorem C7_witness :
    parsedRGBP.valid ∧
    ((⟨codeRGBP, []⟩ : Board).submit codeRRRR).1.hidden_code.valid :=
  ⟨C7_derived_set_invariant.1 ['r', 'g', 'b', 'p'] parsedRGBP rfl,
   (C7_derived_set_invariant.2 ⟨codeRGBP, []⟩ codeRRRR (by decide) (by decide)).1⟩

lemma submit_eq (b : Board) (g : Code) :
    b.submit g =
      (⟨b.hidden_code, b.rounds ++ [⟨g, b.hidden_code.score g⟩]⟩,
       (b.hidden_code.score g).wins) := by
  unfold Board.submit
  simp only [List.getLast?_concat]
  rfl

lemma play_run (h : Code) (rs : List Round) (gs : List Code) (g : Code)
    (extra : List Code)
    (hnw : ∀ x ∈ gs, (h.score x).wins = false)
    (hw : (h.score g).wins = true) :
    play ⟨h, rs⟩ (gs ++ g :: extra) =
      ⟨h, rs ++ (gs ++ [g]).map (fun x => ⟨x, h.score x⟩)⟩ := by
  induction gs generalizing rs with
  | nil =>
      rw [List.nil_append]
      simp only [play, submit_eq, hw]
      rfl
  | cons x gs ih =>
      rw [List.cons_append]
      have hx : (h.score x).wins = false := hnw x (List.mem_cons_self x gs)
      simp only [play, submit_eq, hx]
      have ih2 := ih (rs ++ [{ input_code := x, score := h.score x }])
        (fun y hy => hnw y (List.mem_cons_of_mem x hy))
      rw [ih2]
      simp [List.append_assoc]

/-- C8: after N submissions whose Scores are non-winning followed by one
winning submission, the board's round history holds exactly N+1 Rounds in
submission order, only the last Round is winning, and the driving loop
stops right after the winning round — guesses supplied after it are never
consumed. -/
theorem C8_history_integrity (h : Code) (gs : List Code) (g : Code)
    (extra : List Code)
    (hnw : ∀ x ∈ gs, (h.score x).wins = false)
    (hw : (h.score g).wins = true) :
    (play ⟨h, []⟩ (gs ++ g :: extra)).rounds.length = gs.length + 1 ∧
    (play ⟨h, []⟩ (gs ++ g :: extra)).rounds.map Round.input_code = gs ++ [g] ∧
    (play ⟨h, []⟩ (gs ++ g :: extra)).rounds.map Round.wins =
      List.replicate gs.length false ++ [true] := by
  rw [play_run h [] gs g extra hnw hw]
  simp only [List.nil_append]
  refine ⟨by simp, ?_, ?_⟩
  · have hc : (Round.input_code ∘ fun x =>
        ({ input_code := x, score := h.score x } : Round)) = id := by
      funext y; rfl
    rw [List.map_map, hc, List.map_id]
  rw [List.map_map, List.map_append]
  have h1 : gs.map (Round.wins ∘ fun x => (⟨x, h.score x⟩ : Round)) =
      List.replicate gs.length false := by
    rw [List.eq_replicate_iff]
    refine ⟨by simp, ?_⟩
    intro y hy
    obtain ⟨x, hx, hxy⟩ := List.mem_map.mp hy
    rw [← hxy]
    exact hnw x hx
  rw [h1]
  simp [Round.wins, hw]

theorem C8_witness :
    (play ⟨codeRGBP, []⟩ ([codeRRRR] ++ codeRGBP :: [])).rounds.length =
      [codeRRRR].length + 1 ∧
    (play ⟨codeRGBP, []⟩ ([codeRRRR] ++ codeRGBP :: [])).rounds.map
      Round.input_code = [codeRRRR] ++ [codeRGBP] ∧
    (play ⟨codeRGBP, []⟩ ([codeRRRR] ++ codeRGBP :: [])).rounds.map
      Round.wins = List.replicate [codeRRRR].length false ++ [true] :=
  C8_history_integrity codeRGBP [codeRRRR] codeRGBP [] (by decide) (by decide)

/-- C9: each submission appends exactly one Round (the guess paired with its
score against the hidden code) to the round history and leaves every other
part of the board unchanged — the hidden Code is untouched and all
previously recorded Rounds stay in place. -/
theorem C9_submit_frame (b : Board) (g : Code) :
    (b.submit g).1.hidden_code = b.hidden_code ∧
    (b.submit g).1.rounds = b.rounds ++ [⟨g, b.hidden_code.score g⟩] ∧
    (b.submit g).1.rounds.take b.rounds.length = b.rounds := by
  rw [submit_eq]
  refine ⟨rfl, rfl, ?_⟩
  exact List.take_left b.rounds _

theorem C9_witness :
    ((⟨codeRGBP, []⟩ : Board).submit codeRRRR).1.hidden_code = codeRGBP ∧
    ((⟨codeRGBP, []⟩ : Board).submit codeRRRR).1.rounds =
      [] ++ [⟨codeRRRR, codeRGBP.score codeRRRR⟩] ∧
    ((⟨codeRGBP, []⟩ : Board).submit codeRRRR).1.rounds.take
      ([] : List Round).length = [] :=
  C9_submit_frame ⟨codeRGBP, []⟩ codeRRRR

/-- C10: the fixed-index accesses never go out of bounds — parsing reaches
`pos[0]..pos[3]` only when the filtered list has exactly 4 elements, so the
modelled panic branch `Except.ok none` is unreachable, and scoring indexes
`score[0]..score[3]` on the zip of two length-4 sequences, so the
optional-indexing embedding always returns the total score. -/
theorem C10_index_safety :
    (∀ s : List Char, Code.tryFrom s ≠ Except.ok none) ∧
    (∀ hc gc : Code, hc.scoreOpt gc = some (hc.score gc)) := by
  constructor
  · intro s h
    rcases lt_trichotomy ((s.filterMap parseChar).length) 4 with h1 | h1 | h1
    · unfold Code.tryFrom tryFromPos at h
      rw [if_pos h1] at h
      exact absurd h (by simp)
    · obtain ⟨a, b, x, d, hp⟩ := exists_four _ h1
      unfold Code.tryFrom at h
      rw [hp, tryFromPos_four] at h
      exact absurd h (by simp)
    · unfold Code.tryFrom tryFromPos at h
      rw [if_neg (by omega), if_pos h1] at h
      exact absurd h (by simp)
  · exact scoreOpt_eq_score

theorem C10_witness :
    Code.tryFrom [] ≠ Except.ok none ∧
    codeRGBP.scoreOpt codeRRRR = some (codeRGBP.score codeRRRR) :=
  ⟨C10_index_safety.1 [], C10_index_safety.2 codeRGBP codeRRRR⟩
